import Mathlib

/-!
Verification of the stream-diffing watch loop, reply tagger, retry policy and
rate-limited session gateway of the ShuiyuanAutoReply repository.

Each definition below is a shallow embedding of a concrete piece of the Python
source (file and line references are given in the doc comments).  Identifiers
are modelled as natural numbers, wall/monotonic clock values as natural
numbers, and strings as lists of characters where substring structure matters.
-/

/-! ## Stream differ and watch loops

`BaseTopicModel.watch_new_post_routine` (src/src/shuiyuan/topic_model.py,
lines 62-100) and `BaseUserActionModel.watch_new_action_routine`
(src/src/shuiyuan/user_action_model.py, lines 70-114) each run one poll
iteration: fetch the current ordered id stream, compute the ids to dispatch,
fire one handler task per dispatched id (in list order, via `asyncio.gather`),
and replace `self.stream_list` with the freshly fetched stream.
-/

/-- The anchor search of `BaseTopicModel.watch_new_post_routine`
(topic_model.py lines 80-84): scan the previous `stream_list` backwards
(`for post_id in reversed(self.stream_list)`) and return the first id that is
also contained in the freshly fetched `new_stream` (`if post_id in new_stream`). -/
def topicFindAnchor (streamList newStream : List Nat) : Option Nat :=
  streamList.reverse.find? (fun postId => decide (postId ∈ newStream))

/-- The dispatch list of one topic poll iteration (topic_model.py lines
86-94): if the anchor was found, dispatch the slice of `new_stream` strictly
after the first occurrence of the anchor
(`start_index = new_stream.index(last_stream) + 1; new_posts =
new_stream[start_index:]`); otherwise (`last_stream is None`) dispatch
nothing. -/
def topicNewPosts (streamList newStream : List Nat) : List Nat :=
  match topicFindAnchor streamList newStream with
  | some lastStream => newStream.drop (newStream.indexOf lastStream + 1)
  | none => []

/-- Result of one poll iteration after a successful fetch: the ids whose
handlers are dispatched, in dispatch order, and the new value of
`self.stream_list`. -/
structure PollStep where
  dispatched : List Nat
  streamList : List Nat
  deriving Repr, DecidableEq

/-- One successful-fetch iteration of `watch_new_post_routine`
(topic_model.py lines 76-97): compute the new posts and replace
`self.stream_list = new_stream`. -/
def topicPollStep (streamList newStream : List Nat) : PollStep :=
  { dispatched := topicNewPosts streamList newStream, streamList := newStream }

/-- The newest-new-id search of `BaseUserActionModel.watch_new_action_routine`
(user_action_model.py lines 94-99): scan the freshly fetched `new_stream`
backwards (`for post_id in reversed(new_stream)`) and return the first id that
is not contained in the previous `stream_list`
(`if post_id not in self.stream_list`). -/
def actionFindNewest (streamList newStream : List Nat) : Option Nat :=
  newStream.reverse.find? (fun postId => decide (postId ∉ streamList))

/-- The dispatch list of one action poll iteration past bootstrap
(user_action_model.py lines 101-111): if some id of `new_stream` is new,
dispatch the prefix of the fetched stream up to and including the first
occurrence of that id (`last_index = new_stream.index(last_stream) + 1;
new_actions = action_details[:last_index]`); otherwise dispatch nothing.
The dispatched action details correspond 1:1 (positionally) to the ids of
`new_stream`, so the model works at the id level. -/
def actionNewPosts (streamList newStream : List Nat) : List Nat :=
  match actionFindNewest streamList newStream with
  | some lastStream => newStream.take (newStream.indexOf lastStream + 1)
  | none => []

/-- One successful-fetch iteration of `watch_new_action_routine`
(user_action_model.py lines 86-114): if the previous `stream_list` is empty it
is initialised to the fetched stream with no dispatch
(`if not self.stream_list: self.stream_list = new_stream; continue`),
otherwise the new actions are dispatched and `self.stream_list = new_stream`. -/
def actionPollStep (streamList newStream : List Nat) : PollStep :=
  if streamList = [] then
    { dispatched := [], streamList := newStream }
  else
    { dispatched := actionNewPosts streamList newStream, streamList := newStream }

/-- Result of one full iteration of a watch loop, including the fetch:
whether `logging.error` ran, how long the iteration slept inside the
exception branch before returning to polling, the dispatched ids and the
resulting `stream_list`. -/
structure IterationResult where
  loggedError : Bool
  backoffSleep : Nat
  dispatched : List Nat
  streamList : List Nat
  deriving Repr, DecidableEq

/-- One full iteration of `watch_new_post_routine` (topic_model.py lines
67-100).  A failed `get_topic_details` is logged, followed by
`await asyncio.sleep(2)` and `continue`, leaving `self.stream_list`
untouched; a successful fetch runs `topicPollStep`.  (The unconditional
poll-interval sleep at line 100 is outside the exception branch and is not
recorded here.) -/
def topicWatchIteration (streamList : List Nat)
    (fetched : Except String (List Nat)) : IterationResult :=
  match fetched with
  | .error _ =>
    { loggedError := true, backoffSleep := 2,
      dispatched := [], streamList := streamList }
  | .ok newStream =>
    let step := topicPollStep streamList newStream
    { loggedError := false, backoffSleep := 0,
      dispatched := step.dispatched, streamList := step.streamList }

/-- One full iteration of `watch_new_action_routine` (user_action_model.py
lines 74-114).  A failed `get_actions` is logged and the loop immediately
`continue`s: the exception branch contains no sleep at all, and
`self.stream_list` is untouched. -/
def actionWatchIteration (streamList : List Nat)
    (fetched : Except String (List Nat)) : IterationResult :=
  match fetched with
  | .error _ =>
    { loggedError := true, backoffSleep := 0,
      dispatched := [], streamList := streamList }
  | .ok newStream =>
    let step := actionPollStep streamList newStream
    { loggedError := false, backoffSleep := 0,
      dispatched := step.dispatched, streamList := step.streamList }

/-! ### Helper lemmas about indexOf / find? on appended lists -/

/-- The first occurrence of `a` in `ps ++ a :: s` is at position `ps.length`
when `a` does not occur in `ps`. -/
theorem indexOf_append_cons_self {a : Nat} {ps s : List Nat} (h : a ∉ ps) :
    (ps ++ a :: s).indexOf a = ps.length := by
  induction ps with
  | nil => simp [List.indexOf_cons_self]
  | cons b ps ih =>
    have hba : b ≠ a := by
      intro hba
      exact h (hba ▸ List.mem_cons_self b ps)
    have hna : a ∉ ps := fun hm => h (List.mem_cons_of_mem b hm)
    simp [List.indexOf_cons, hba, Ne.symm hba, ih hna, List.length_cons]

/-- `find?` skips a whole first block on which the predicate is false. -/
theorem find?_append_of_forall_false {p : Nat → Bool} {l₁ l₂ : List Nat}
    (h : ∀ x ∈ l₁, p x = false) :
    (l₁ ++ l₂).find? p = l₂.find? p := by
  induction l₁ with
  | nil => rfl
  | cons b l₁ ih =>
    have hb : ¬ p b = true := by
      simp [h b (List.mem_cons_self b l₁)]
    rw [List.cons_append, List.find?_cons_of_neg _ hb]
    exact ih (fun x hx => h x (List.mem_cons_of_mem b hx))

/-- The anchor of a topic poll whose fetched stream extends the previous one
is the last element of the previous stream. -/
theorem topicFindAnchor_append (ps s : List Nat) (a : Nat) :
    topicFindAnchor (ps ++ [a]) ((ps ++ [a]) ++ s) = some a := by
  unfold topicFindAnchor
  rw [List.reverse_append]
  have ha : a ∈ (ps ++ [a]) ++ s := by simp
  simp [List.find?_cons_of_pos, ha]

/-- Appended-suffix correctness of the topic diff, provided the last element
of the previous stream does not also occur earlier in it. -/
theorem topicNewPosts_append (ps s : List Nat) (a : Nat) (h : a ∉ ps) :
    topicNewPosts (ps ++ [a]) ((ps ++ [a]) ++ s) = s := by
  unfold topicNewPosts
  rw [topicFindAnchor_append]
  show (ps ++ [a] ++ s).drop ((ps ++ [a] ++ s).indexOf a + 1) = s
  have hcur : ps ++ [a] ++ s = ps ++ a :: s := by simp
  rw [hcur, indexOf_append_cons_self h, ← hcur]
  have hlen : ps.length + 1 = (ps ++ [a]).length := by simp
  rw [hlen, List.drop_left]

/-- The action diff dispatches nothing when the fetched stream has no id
outside the previous stream. -/
theorem actionNewPosts_of_subset (prev cur : List Nat)
    (h : ∀ x ∈ cur, x ∈ prev) : actionNewPosts prev cur = [] := by
  unfold actionNewPosts actionFindNewest
  have hnone : cur.reverse.find? (fun postId => decide (postId ∉ prev)) = none := by
    rw [List.find?_eq_none]
    intro x hx
    simp [h x (List.mem_reverse.mp hx)]
  rw [hnone]

/-- Prepended-prefix correctness of the action diff: when the fetched stream
is the previous one with new ids put in front, and the oldest new id occurs
nowhere else in front of the previous stream, exactly the new prefix is
dispatched. -/
theorem actionNewPosts_prepend (prev qs : List Nat) (b : Nat)
    (hbp : b ∉ prev) (hbq : b ∉ qs) :
    actionNewPosts prev ((qs ++ [b]) ++ prev) = qs ++ [b] := by
  unfold actionNewPosts actionFindNewest
  have hrev : ((qs ++ [b]) ++ prev).reverse = prev.reverse ++ (b :: qs.reverse) := by
    simp
  have hfind : (prev.reverse ++ (b :: qs.reverse)).find?
      (fun postId => decide (postId ∉ prev)) = some b := by
    rw [find?_append_of_forall_false]
    · exact List.find?_cons_of_pos _ (by simp [hbp])
    · intro x hx
      simp [List.mem_reverse.mp hx]
  rw [hrev, hfind]
  show (qs ++ [b] ++ prev).take ((qs ++ [b] ++ prev).indexOf b + 1) = qs ++ [b]
  have hcur : qs ++ [b] ++ prev = qs ++ b :: prev := by simp
  rw [hcur, indexOf_append_cons_self hbq, ← hcur]
  have hlen : qs.length + 1 = (qs ++ [b]).length := by simp
  rw [hlen, List.take_left]

/-- Claim C2 (amended).  For the topic watch loop the claim holds as stated,
provided the last element of `previous` does not also occur earlier in
`previous`: one poll iteration on `current = previous ++ appended` dispatches
exactly the appended ids, in order, and replaces `stream_list` with
`current`.  The action watch loop instead expects new ids at the front of the
fetched stream (its source is newest-first): with `current = previous`
(nothing appended) it dispatches nothing, and with
`current = appended ++ previous`, where the oldest appended id occurs nowhere
else in `appended` and not in `previous`, it dispatches exactly `appended` in
order. -/
theorem watch_dispatch_of_new_items :
    (∀ (ps s : List Nat) (a : Nat), a ∉ ps →
      topicPollStep (ps ++ [a]) ((ps ++ [a]) ++ s) =
        { dispatched := s, streamList := (ps ++ [a]) ++ s })
    ∧ (∀ prev : List Nat, actionPollStep prev prev =
        { dispatched := [], streamList := prev })
    ∧ (∀ (prev qs : List Nat) (b : Nat), prev ≠ [] → b ∉ prev → b ∉ qs →
      actionPollStep prev ((qs ++ [b]) ++ prev) =
        { dispatched := qs ++ [b], streamList := (qs ++ [b]) ++ prev }) := by
  refine ⟨fun ps s a h => ?_, fun prev => ?_, fun prev qs b hne hbp hbq => ?_⟩
  · unfold topicPollStep
    rw [topicNewPosts_append ps s a h]
  · by_cases hp : prev = []
    · subst hp; rfl
    · unfold actionPollStep
      rw [if_neg hp, actionNewPosts_of_subset prev prev (fun x hx => hx)]
  · unfold actionPollStep
    rw [if_neg hne, actionNewPosts_prepend prev qs b hbp hbq]

/-- Witness for claim C2 at concrete inputs: topic poll `[1,2]` then
`[1,2,4,5]` dispatches `[4,5]`; action poll `[1,2]` then `[4,5,1,2]`
dispatches `[4,5]`. -/
theorem watch_dispatch_of_new_items_witness :
    topicPollStep [1,2] [1,2,4,5] =
      { dispatched := [4,5], streamList := [1,2,4,5] }
    ∧ actionPollStep [1,2] [4,5,1,2] =
      { dispatched := [4,5], streamList := [4,5,1,2] } := by
  constructor
  · have h := watch_dispatch_of_new_items.1 [1] [4,5] 2 (by decide)
    simpa using h
  · have h := watch_dispatch_of_new_items.2.2 [1,2] [4] 5 (by decide)
      (by decide) (by decide)
    simpa using h

/-- Counterexample to claim C2 as stated: for the action watch loop with
`previous = [1,2]` and `current = previous ++ [3]`, the poll iteration
dispatches all of `[1,2,3]`, not just the appended `[3]`. -/
theorem watch_dispatch_append_counterexample :
    actionPollStep [1,2] [1,2,3] =
      { dispatched := [1,2,3], streamList := [1,2,3] }
    ∧ ([1,2,3] : List Nat) ≠ [3] := by
  exact ⟨by decide, by decide⟩

/-- Claim C3 (amended).  For the topic watch loop the claim holds as stated:
on total discontinuity (non-empty `previous`, no element of `previous` in
`current`) nothing is dispatched and `stream_list` is replaced by `current`.
The action watch loop instead dispatches the prefix of `current` up to the
first occurrence of its last element — the whole of `current` whenever the
last element of `current` occurs only there — while still replacing
`stream_list` with `current`. -/
theorem watch_discontinuity :
    (∀ prev cur : List Nat, prev ≠ [] → (∀ x ∈ prev, x ∉ cur) →
      topicPollStep prev cur = { dispatched := [], streamList := cur })
    ∧ (∀ (prev qs : List Nat) (b : Nat), prev ≠ [] →
      (∀ x ∈ prev, x ∉ qs ++ [b]) → b ∉ qs →
      actionPollStep prev (qs ++ [b]) =
        { dispatched := qs ++ [b], streamList := qs ++ [b] }) := by
  constructor
  · intro prev cur _ hdisj
    unfold topicPollStep topicNewPosts topicFindAnchor
    have hnone : prev.reverse.find? (fun postId => decide (postId ∈ cur)) = none := by
      rw [List.find?_eq_none]
      intro x hx
      simp [hdisj x (List.mem_reverse.mp hx)]
    rw [hnone]
  · intro prev qs b hne hdisj hbq
    have hbp : b ∉ prev := by
      intro hb
      exact hdisj b hb (by simp)
    unfold actionPollStep
    rw [if_neg hne]
    unfold actionNewPosts actionFindNewest
    have hrev : (qs ++ [b]).reverse = b :: qs.reverse := by simp
    have hfind : (b :: qs.reverse).find?
        (fun postId => decide (postId ∉ prev)) = some b :=
      List.find?_cons_of_pos _ (by simp [hbp])
    rw [hrev, hfind]
    show PollStep.mk ((qs ++ [b]).take ((qs ++ [b]).indexOf b + 1)) (qs ++ [b])
      = { dispatched := qs ++ [b], streamList := qs ++ [b] }
    have hidx : (qs ++ [b]).indexOf b = qs.length := by
      have h0 : (qs ++ b :: []).indexOf b = qs.length :=
        indexOf_append_cons_self hbq
      simpa using h0
    rw [hidx]
    have hlen : qs.length + 1 = (qs ++ [b]).length := by simp
    rw [hlen, List.take_length]

/-- Witness for claim C3 at concrete inputs: topic poll `[1,2,3]` then
`[4,5,6]` dispatches nothing; action poll `[1,2,3]` then `[4,5,6]`
dispatches all of `[4,5,6]`. -/
theorem watch_discontinuity_witness :
    topicPollStep [1,2,3] [4,5,6] = { dispatched := [], streamList := [4,5,6] }
    ∧ actionPollStep [1,2,3] [4,5,6] =
      { dispatched := [4,5,6], streamList := [4,5,6] } := by
  constructor
  · exact watch_discontinuity.1 [1,2,3] [4,5,6] (by decide) (by decide)
  · have h := watch_discontinuity.2 [1,2,3] [4,5] 6 (by decide) (by decide)
      (by decide)
    simpa using h

/-- Counterexample to claim C3 as stated: on total discontinuity
(`previous = [1,2,3]`, `current = [4,5,6]`) the action watch loop dispatches
all of `[4,5,6]` rather than the empty sequence. -/
theorem watch_discontinuity_counterexample :
    actionPollStep [1,2,3] [4,5,6] =
      { dispatched := [4,5,6], streamList := [4,5,6] }
    ∧ ([4,5,6] : List Nat) ≠ [] := by
  exact ⟨by decide, by decide⟩

/-- Claim C4: on the very first poll (`stream_list` empty), both watch loops
dispatch nothing and replace `stream_list` with the fetched stream
(bootstrap silence). -/
theorem first_poll_silent (cur : List Nat) :
    topicPollStep [] cur = { dispatched := [], streamList := cur }
    ∧ actionPollStep [] cur = { dispatched := [], streamList := cur } :=
  ⟨rfl, rfl⟩

/-- Claim C6 (amended).  On a fetch failure, the topic watch loop logs the
error, sleeps the fixed 2-unit backoff, and leaves `stream_list` exactly as
it was; the action watch loop logs the error and immediately retries with no
backoff sleep at all, also leaving `stream_list` unchanged. -/
theorem fetch_failure_iteration (prev : List Nat) (e : String) :
    topicWatchIteration prev (.error e) =
      { loggedError := true, backoffSleep := 2,
        dispatched := [], streamList := prev }
    ∧ actionWatchIteration prev (.error e) =
      { loggedError := true, backoffSleep := 0,
        dispatched := [], streamList := prev } :=
  ⟨rfl, rfl⟩

/-- Counterexample to claim C6 as stated: the action watch loop performs no
backoff sleep on a failed fetch (it `continue`s immediately), so the claimed
fixed backoff interval does not exist for it. -/
theorem fetch_failure_no_backoff_counterexample :
    (actionWatchIteration [1,2,3] (.error "boom")).backoffSleep = 0
    ∧ (actionWatchIteration [1,2,3] (.error "boom")).streamList = [1,2,3] :=
  ⟨rfl, rfl⟩

/-! ## Reply idempotency tagger and nonce generator -/

/-- The 62-symbol alphanumeric population passed to `random.sample` by
`_generate_random_string` (user_action_model.py lines 30-43, topic_model.py
lines 27-39, mention_model.py lines 27-40). -/
def randomAlphabet : List Char :=
  "abcdefghijklmnopqrstuvwxyzABCDEFGHIJKLMNOPQRSTUVWXYZ0123456789".toList

/-- `_generate_random_string(length)`, i.e.
`"".join(random.sample(alphabet, k=length))`.  `random.sample` draws `k`
distinct positions of the population without replacement; the drawn position
list is the model's nondeterminism parameter, constrained in the theorems to
be duplicate-free of length `k` exactly as `random.sample` guarantees. -/
def generateRandomString (positions : List (Fin randomAlphabet.length)) :
    List Char :=
  positions.map randomAlphabet.get

/-- Claim C10: every nonce produced by `_generate_random_string(20)` (a
`random.sample` of 20 of the 62 alphanumeric symbols, i.e. 20 distinct
positions) has 20 pairwise distinct characters, all drawn from the 62-symbol
alphabet — so the nonce space is the 20-permutations of 62 symbols rather
than all 62^20 strings. -/
theorem generated_nonce_chars_distinct
    (positions : List (Fin randomAlphabet.length))
    (hnodup : positions.Nodup) (hlen : positions.length = 20) :
    (generateRandomString positions).Nodup
    ∧ (generateRandomString positions).length = 20
    ∧ ∀ c ∈ generateRandomString positions, c ∈ randomAlphabet := by
  have hinj : Function.Injective randomAlphabet.get := by
    have hnd : randomAlphabet.Nodup := by decide
    intro i j hij
    exact List.nodup_iff_injective_get.mp hnd hij
  refine ⟨hnodup.map hinj, ?_, ?_⟩
  · simp [generateRandomString, hlen]
  · intro c hc
    rcases List.mem_map.mp hc with ⟨i, _, rfl⟩
    exact randomAlphabet.get_mem i.1 i.2

/-- Witness for claim C10 at a concrete drawn-position list `0, 1, ..., 19`. -/
theorem generated_nonce_chars_distinct_witness :
    (generateRandomString ((List.range 20).pmap
        (fun i h => (⟨i, h⟩ : Fin randomAlphabet.length))
        (by decide))).Nodup := by
  have h := generated_nonce_chars_distinct
    ((List.range 20).pmap
      (fun i h => (⟨i, h⟩ : Fin randomAlphabet.length)) (by decide))
    (by decide) (by decide)
  exact h.1

/-- The fixed auto-reply marker string.

Modelled from the spec: `auto_reply_tag`, imported by user_action_model.py
and mention_model.py from `src/constants.py`, is absent from the source
snapshot; per the spec it is "a fixed literal marker string recognized
elsewhere as this is an auto-reply", and every older in-repo duplicate
(dog_topic_model.py, tarot_topic_model.py, stock_topic_model.py) defines it
as the hidden comment below. -/
def autoReplyTag : List Char := "<!-- 来自南瓜的自动回复 -->".toList

/-- `_make_unique_reply(base)` of `BaseUserActionModel` (user_action_model.py
lines 45-57) and `BaseMentionModel` (mention_model.py lines 42-54):
`f"{base}\n\n" f"<!-- {nonce} -->\n" f"{auto_reply_tag}"`, with `nonce` the
20-character `_generate_random_string(20)` draw. -/
def makeUniqueReply (base nonce : List Char) : List Char :=
  base ++ "\n\n<!-- ".toList ++ nonce ++ " -->\n".toList ++ autoReplyTag

/-- Claim C9: for every body, the tagger's output contains the fixed
auto-reply marker as a substring (in fact as a suffix), and two tagger
outputs for the same body are never byte-identical when their two
20-character nonces differ. -/
theorem tagged_reply_marker_and_unique :
    (∀ base nonce : List Char,
      autoReplyTag <:+: makeUniqueReply base nonce)
    ∧ (∀ (base n₁ n₂ : List Char), n₁.length = 20 → n₂.length = 20 →
      n₁ ≠ n₂ → makeUniqueReply base n₁ ≠ makeUniqueReply base n₂) := by
  constructor
  · intro base nonce
    refine ⟨base ++ "\n\n<!-- ".toList ++ nonce ++ " -->\n".toList, [], ?_⟩
    simp [makeUniqueReply]
  · intro base n₁ n₂ _ _ hne heq
    apply hne
    have h₁ : base ++ ("\n\n<!-- ".toList ++ (n₁ ++ (" -->\n".toList ++ autoReplyTag)))
        = base ++ ("\n\n<!-- ".toList ++ (n₂ ++ (" -->\n".toList ++ autoReplyTag))) := by
      simpa [makeUniqueReply, List.append_assoc] using heq
    have h₂ := List.append_cancel_left h₁
    have h₃ := List.append_cancel_left h₂
    exact List.append_cancel_right h₃

/-- Witness for claim C9 at concrete inputs: marker containment for body
`"hi"`, and distinct outputs for two distinct 20-character nonces. -/
theorem tagged_reply_marker_and_unique_witness :
    autoReplyTag <:+: makeUniqueReply "hi".toList "aAbBcCdDeEfFgGhHiIjJ".toList
    ∧ makeUniqueReply "hi".toList "aAbBcCdDeEfFgGhHiIjJ".toList
      ≠ makeUniqueReply "hi".toList "AaBbCcDdEeFfGgHhIiJj".toList := by
  constructor
  · exact tagged_reply_marker_and_unique.1 "hi".toList "aAbBcCdDeEfFgGhHiIjJ".toList
  · exact tagged_reply_marker_and_unique.2 "hi".toList
      "aAbBcCdDeEfFgGhHiIjJ".toList "AaBbCcDdEeFfGgHhIiJj".toList
      (by decide) (by decide) (by decide)

/-! ## Reply posting with 429 retry -/

/-- An HTTP response as seen by `reply_to_post`: status code and body text. -/
structure HttpResponse where
  status : Nat
  body : List Char
  deriving Repr, DecidableEq

/-- Outcome of the `while True` posting loop of
`ShuiyuanModel.reply_to_post` (shuiyuan_model.py lines 194-204), recording
how many one-second `asyncio.sleep(1)` retry pauses ran before the outcome:
`success` for `break` on status 200, `failure body` for the
`raise Exception(...)` carrying the response body on any other non-429
status, and `stillRetrying` when the given finite response sequence was
exhausted with every response a 429 (the real loop would keep retrying). -/
inductive ReplyOutcome where
  | success (sleeps : Nat)
  | failure (body : List Char) (sleeps : Nat)
  | stillRetrying (sleeps : Nat)
  deriving Repr, DecidableEq

/-- The posting loop of `reply_to_post`, driven by the sequence of responses
the rate-limited POST returns on successive attempts:
status 200 breaks out successfully, status 429 logs a warning, sleeps one
second and retries, anything else raises with the response body. -/
def replyToPost : List HttpResponse → ReplyOutcome
  | [] => .stillRetrying 0
  | r :: rs =>
    if r.status = 200 then .success 0
    else if r.status = 429 then
      match replyToPost rs with
      | .success n => .success (n + 1)
      | .failure b n => .failure b (n + 1)
      | .stillRetrying n => .stillRetrying (n + 1)
    else .failure r.body 0

/-- A 429 answer makes the posting loop sleep once and recurse on the
remaining responses. -/
theorem replyToPost_cons_429 {q : HttpResponse} (rs : List HttpResponse)
    (hq : q.status = 429) :
    replyToPost (q :: rs) =
      match replyToPost rs with
      | .success n => .success (n + 1)
      | .failure b n => .failure b (n + 1)
      | .stillRetrying n => .stillRetrying (n + 1) := by
  have hq200 : ¬ q.status = 200 := by simp [hq]
  simp [replyToPost, hq200, hq]

/-- Claim C8: every HTTP 429 answer to the reply-posting operation causes
one brief sleep and an unconditional retry (indefinitely: a pure-429 run
never produces success or failure), a 200 answer completes the operation
successfully with no error, and any other status fails the operation with an
error carrying that response body. -/
theorem reply_retry_policy (pre : List HttpResponse)
    (hpre : ∀ r ∈ pre, r.status = 429) :
    (∀ (r : HttpResponse) (rest : List HttpResponse), r.status = 200 →
      replyToPost (pre ++ r :: rest) = .success pre.length)
    ∧ (∀ (r : HttpResponse) (rest : List HttpResponse),
      r.status ≠ 200 → r.status ≠ 429 →
      replyToPost (pre ++ r :: rest) = .failure r.body pre.length)
    ∧ replyToPost pre = .stillRetrying pre.length := by
  induction pre with
  | nil =>
    refine ⟨fun r rest h200 => ?_, fun r rest h200 h429 => ?_, rfl⟩
    · simp [replyToPost, h200]
    · simp [replyToPost, h200, h429]
  | cons q pre ih =>
    have hq : q.status = 429 := hpre q (List.mem_cons_self q pre)
    have hq200 : ¬ q.status = 200 := by simp [hq]
    have ih2 := ih (fun r hr => hpre r (List.mem_cons_of_mem q hr))
    refine ⟨fun r rest h200 => ?_, fun r rest h200 h429 => ?_, ?_⟩
    · rw [List.cons_append, replyToPost_cons_429 _ hq, ih2.1 r rest h200]
      simp
    · rw [List.cons_append, replyToPost_cons_429 _ hq,
        ih2.2.1 r rest h200 h429]
      simp
    · rw [replyToPost_cons_429 _ hq, ih2.2.2]
      simp

/-- Witness for claim C8: the spec's 429-twice-then-200 scenario succeeds
after exactly two retry sleeps, a 500 after two 429s fails with its body,
and three straight 429s leave the loop still retrying. -/
theorem reply_retry_policy_witness :
    replyToPost [⟨429, []⟩, ⟨429, []⟩, ⟨200, []⟩] = .success 2
    ∧ replyToPost [⟨429, []⟩, ⟨429, []⟩, ⟨500, "err".toList⟩]
      = .failure "err".toList 2
    ∧ replyToPost [⟨429, []⟩, ⟨429, []⟩, ⟨429, []⟩] = .stillRetrying 3 := by
  have h := reply_retry_policy [⟨429, []⟩, ⟨429, []⟩] (by decide)
  refine ⟨?_, ?_, ?_⟩
  · simpa using h.1 ⟨200, []⟩ [] rfl
  · simpa using h.2.1 ⟨500, "err".toList⟩ [] (by decide) (by decide)
  · have h3 := reply_retry_policy [⟨429, []⟩, ⟨429, []⟩, ⟨429, []⟩] (by decide)
    simpa using h3.2.2

/-! ## Rate-limited session gateway: single call

`ShuiyuanModel._rate_limited_request` (src/src/shuiyuan/shuiyuan_model.py,
lines 134-170) chains every request behind the class-level `_request_chain`
future.  Futures are numbered in creation order: future 0 is the
pre-resolved future installed by `_ensure_locks` (lines 74-78), and the
caller that finds future `i` in `_request_chain` installs future `i + 1`.
-/

/-- `_request_interval` (shuiyuan_model.py line 41), in whole time units. -/
def requestInterval : Nat := 1

/-- The class-level gateway state one `_rate_limited_request` call touches:
the index of the future currently stored in `_request_chain`, which futures
have had `set_result` called on them, and `_last_request_ts`. -/
structure GatewayState where
  chainTail : Nat
  resolved : Nat → Bool
  lastRequestTs : Nat

/-- One complete execution of `ShuiyuanModel._rate_limited_request`
(shuiyuan_model.py lines 134-170) viewed sequentially.  The caller swaps a
fresh `next_future` into `_request_chain` (lines 142-148), awaits its
predecessor, sleeps out the cooldown (modelled in the trace semantics
below), performs the HTTP call — whose outcome, response or raised
exception, is the parameter `httpResult` — updates `_last_request_ts` to the
completion time only on the success path (line 165), and in the `finally`
block (lines 167-170) calls `set_result` on `next_future` if it is not yet
done, regardless of the outcome. -/
def rateLimitedRequest (s : GatewayState) (completion : Nat)
    (httpResult : Except String HttpResponse) :
    Except String HttpResponse × GatewayState :=
  let nextFuture := s.chainTail + 1
  let s₁ : GatewayState := { s with chainTail := nextFuture }
  let tryResult : Except String HttpResponse × GatewayState :=
    match httpResult with
    | .ok resp => (.ok resp, { s₁ with lastRequestTs := completion })
    | .error e => (.error e, s₁)
  let s₂ := tryResult.2
  (tryResult.1,
    if s₂.resolved nextFuture = true then s₂
    else { s₂ with resolved := fun i =>
      if i = nextFuture then true else s₂.resolved i })

/-- Claim C5: every execution of `_rate_limited_request` — whether the HTTP
call returns a response or raises — leaves the freshly installed successor
future resolved on the exit path (the `finally` block), so a failing request
never leaves the next waiting caller blocked forever. -/
theorem successor_always_signaled (s : GatewayState) (completion : Nat)
    (httpResult : Except String HttpResponse) :
    ((rateLimitedRequest s completion httpResult).2).resolved
      (s.chainTail + 1) = true := by
  unfold rateLimitedRequest
  cases httpResult <;> dsimp only <;> split <;> simp_all

/-! ## Session lifecycle and reference counting -/

/-- Exceptions the session lifecycle code can raise:
`CookiesFileNotFoundError` (shuiyuan_model.py lines 20-23),
`CSRFTokenNotFoundError` (lines 26-29), and the interpreter-level
`TypeError` raised by a synchronous `with` on an object that is not a
synchronous context manager. -/
inductive PyError where
  | cookiesFileNotFound
  | csrfTokenNotFound
  | typeError
  deriving Repr, DecidableEq

/-- Class-level shared state of `ShuiyuanModel` (shuiyuan_model.py lines
38-43).  Sessions are numbered in construction order: `sharedSession` models
`_shared_session` (`none` for Python `None`), `closedSessions` lists the
session numbers whose `close()` coroutine has run, `activeInstances` is
`_active_instances`, `requestChainSet` records whether `_request_chain`
holds a future, `lastRequestTs` is `_last_request_ts` and `sessionsBuilt`
counts `aiohttp.ClientSession()` constructions. -/
structure SessionLifecycle where
  sharedSession : Option Nat
  closedSessions : List Nat
  activeInstances : Nat
  requestChainSet : Bool
  lastRequestTs : Nat
  sessionsBuilt : Nat
  deriving Repr, DecidableEq

/-- The state at process start: all class variables at their initialisers. -/
def initialLifecycle : SessionLifecycle :=
  { sharedSession := none, closedSessions := [], activeInstances := 0,
    requestChainSet := false, lastRequestTs := 0, sessionsBuilt := 0 }

/-- `cls._shared_session is not None and not cls._shared_session.closed`
(shuiyuan_model.py line 85). -/
def sessionOpen (s : SessionLifecycle) : Bool :=
  match s.sharedSession with
  | some sid => !(s.closedSessions.contains sid)
  | none => false

/-- `ShuiyuanModel._ensure_shared_session` (shuiyuan_model.py lines 80-105),
run under `_session_init_lock` (concurrent creators are serialised, so the
model is sequential).  If an open session exists it is returned unchanged;
otherwise a missing cookies file raises, else exactly one new session is
constructed and stored, after which the CSRF bootstrap of `_update_cookies`
(lines 107-128) may raise.  The pair returns the raised exception (if any)
together with the class state left behind. -/
def ensureSharedSession (cookiesFileExists csrfOk : Bool)
    (s : SessionLifecycle) : Option PyError × SessionLifecycle :=
  if sessionOpen s then (none, s)
  else if cookiesFileExists = false then (some .cookiesFileNotFound, s)
  else
    let s₁ := { s with sharedSession := some s.sessionsBuilt,
                       sessionsBuilt := s.sessionsBuilt + 1 }
    if csrfOk = false then (some .csrfTokenNotFound, s₁) else (none, s₁)

/-- `ShuiyuanModel.create` (shuiyuan_model.py lines 52-67): `_ensure_locks`
installs the pre-resolved chain future if absent, `_load_persistence_cookie`
runs `_ensure_shared_session`, then `_active_instances` is incremented. -/
def createModel (cookiesFileExists csrfOk : Bool)
    (s : SessionLifecycle) : Option PyError × SessionLifecycle :=
  let s₀ := if s.requestChainSet then s else { s with requestChainSet := true }
  match ensureSharedSession cookiesFileExists csrfOk s₀ with
  | (some e, s₁) => (some e, s₁)
  | (none, s₁) => (none, { s₁ with activeInstances := s₁.activeInstances + 1 })

/-- `ShuiyuanModel._close_shared_session` (shuiyuan_model.py lines 420-430).
Its first statement is `with cls._session_init_lock:` — a synchronous `with`
on an `asyncio.Lock`.  `asyncio.Lock` implements only the asynchronous
context-manager protocol (`__aenter__`/`__aexit__`), so the statement raises
`TypeError` before anything else runs (the code requires Python ≥ 3.12: the
f-string at shuiyuan_model.py line 270 nests unescaped same-type quotes);
the `await cls._shared_session.close()` call and the resets of
`_shared_session`, `_request_chain` and `_last_request_ts` at lines 428-430
are never reached. -/
def closeSharedSession (s : SessionLifecycle) :
    Option PyError × SessionLifecycle :=
  (some .typeError, s)

/-- `ShuiyuanModel.close` / `_decrement_instance_and_maybe_close`
(shuiyuan_model.py lines 394-418): decrement `_active_instances` if
positive, and tear the shared session down when the count reaches zero. -/
def closeModel (s : SessionLifecycle) : Option PyError × SessionLifecycle :=
  let s₀ := if 0 < s.activeInstances then
    { s with activeInstances := s.activeInstances - 1 } else s
  if s₀.activeInstances = 0 then closeSharedSession s₀ else (none, s₀)

/-- `n` successive successful `create()` calls starting from `s`. -/
def createN : Nat → SessionLifecycle → SessionLifecycle
  | 0, s => s
  | n + 1, s => (createModel true true (createN n s)).2

/-- Claim C7 (code bug).  The construction half of the claim holds: any
number `n + 1` of `create()` calls constructs exactly one underlying
session, with the reference count tracking the number of creators.  The
teardown half does not: when the reference count reaches zero, `close()`
raises `TypeError` at the synchronous `with cls._session_init_lock:`
statement of `_close_shared_session`, so the one session is never closed and
none of `_shared_session`, `_request_chain`, `_last_request_ts` is reset. -/
theorem session_refcount_close_divergence :
    (∀ n : Nat, createN (n + 1) initialLifecycle =
      { sharedSession := some 0, closedSessions := [],
        activeInstances := n + 1, requestChainSet := true,
        lastRequestTs := 0, sessionsBuilt := 1 })
    ∧ (closeModel (createN 1 initialLifecycle)).1 = some .typeError
    ∧ (closeModel (createN 1 initialLifecycle)).2 =
      { sharedSession := some 0, closedSessions := [],
        activeInstances := 0, requestChainSet := true,
        lastRequestTs := 0, sessionsBuilt := 1 } := by
  refine ⟨?_, by decide, by decide⟩
  intro n
  induction n with
  | zero => decide
  | succ n ih =>
    show (createModel true true (createN (n + 1) initialLifecycle)).2 = _
    rw [ih]
    rfl

/-! ## Rate-limited session gateway: concurrent trace semantics

Cooperative-concurrency semantics of `_rate_limited_request`
(shuiyuan_model.py lines 134-170) for any number of concurrent callers on
one asyncio event loop.  Code between two `await` suspension points runs
atomically; each such segment is one event, time-stamped with the monotonic
clock.  The segments of one call are: `enter` (lines 142-148, read
`_request_chain` into `wait_for` and install a fresh `next_future` — this is
arrival at the gate), `beginWait` (resume from `await wait_for` at line 151
and compute the cooldown sleep of lines 155-158), `issue` (wake from the
cooldown sleep and start the HTTP call of lines 161-162 — this is passing
the throttle), and `complete` (the HTTP call returns or raises at line 162;
on success line 165 sets `_last_request_ts`; the `finally` block resolves
`next_future` either way).  `asyncio.sleep` may wake any time at or after
its deadline, and the scheduler may interleave other tasks at every
suspension point, so events of different callers interleave freely subject
only to their enabling conditions. -/

/-- Where one caller currently is inside `_rate_limited_request`.  `ticket k`
means the caller read future `k` from `_request_chain` and installed future
`k + 1`; `sleeping` also records the wake deadline of its cooldown sleep. -/
inductive CallerPhase where
  | idle
  | waiting (ticket : Nat)
  | sleeping (ticket : Nat) (wake : Nat)
  | inflight (ticket : Nat)
  | done (ticket : Nat)
  deriving Repr, DecidableEq

/-- One atomic scheduler step: which caller ran which segment, at which
monotonic time. -/
inductive GatewayEvent where
  | enter (c t : Nat)
  | beginWait (c t : Nat)
  | issue (c t : Nat)
  | complete (c : Nat) (ok : Bool) (t : Nat)
  deriving Repr, DecidableEq

/-- Global state of the event loop: per-caller phases, the number of futures
handed out so far (`_request_chain` currently holds future `chainLen`),
which futures are resolved, `_last_request_ts`, the current clock, and two
history variables recording gate arrivals and throttle passes in order
(specification-only; no source state corresponds to them). -/
structure SchedState where
  phase : Nat → CallerPhase
  chainLen : Nat
  resolved : Nat → Bool
  lastTs : Nat
  clock : Nat
  enteredList : List Nat
  issuedList : List Nat

/-- Initial state: nobody entered, future 0 (installed pre-resolved by
`_ensure_locks`, lines 74-78) is the chain tail, `_last_request_ts = 0.0`. -/
def gatewayInit : SchedState :=
  { phase := fun _ => .idle, chainLen := 0,
    resolved := fun i => decide (i = 0),
    lastTs := 0, clock := 0, enteredList := [], issuedList := [] }

/-- Point update of the phase map. -/
def setPhase (f : Nat → CallerPhase) (c : Nat) (p : CallerPhase) :
    Nat → CallerPhase :=
  fun x => if x = c then p else f x

/-- Reading the updated point gives the new phase. -/
theorem setPhase_self (f : Nat → CallerPhase) (c : Nat) (p : CallerPhase) :
    setPhase f c p c = p := by
  simp [setPhase]

/-- The time at which the cooldown sleep started at time `t` ends:
`wait_time = _request_interval - (now - _last_request_ts)` is slept exactly
when positive (lines 155-158), so the caller proceeds at
`max(now, _last_request_ts + _request_interval)`. -/
def wakeTime (lastTs t : Nat) : Nat :=
  if t < lastTs + requestInterval then lastTs + requestInterval else t

/-- When an event may fire: the caller must be in the right phase, `enter`
is always possible for an idle caller, resuming from `await wait_for` needs
the awaited future resolved, waking from the cooldown sleep cannot happen
before the deadline, and the clock never goes backwards. -/
def enabledEvent (s : SchedState) : GatewayEvent → Prop
  | .enter c t => s.phase c = .idle ∧ s.clock ≤ t
  | .beginWait c t =>
    (∃ k, s.phase c = .waiting k ∧ s.resolved k = true) ∧ s.clock ≤ t
  | .issue c t =>
    (∃ k w, s.phase c = .sleeping k w ∧ w ≤ t) ∧ s.clock ≤ t
  | .complete c _ t => (∃ k, s.phase c = .inflight k) ∧ s.clock ≤ t

/-- Effect of an event.  `enter` performs lines 142-148 (`wait_for :=
_request_chain; _request_chain := next_future`), `beginWait` computes the
cooldown deadline from the current `_last_request_ts`, `issue` starts the
HTTP call, `complete` records the success timestamp (line 165, success
only) and resolves the successor future (the `finally` block, lines
167-170). -/
def applyEvent (s : SchedState) : GatewayEvent → SchedState
  | .enter c t =>
    { s with phase := setPhase s.phase c (.waiting s.chainLen),
             chainLen := s.chainLen + 1, clock := t,
             enteredList := s.enteredList ++ [c] }
  | .beginWait c t =>
    match s.phase c with
    | .waiting k =>
      { s with phase := setPhase s.phase c (.sleeping k (wakeTime s.lastTs t)),
               clock := t }
    | _ => s
  | .issue c t =>
    match s.phase c with
    | .sleeping k _ =>
      { s with phase := setPhase s.phase c (.inflight k), clock := t,
               issuedList := s.issuedList ++ [c] }
    | _ => s
  | .complete c ok t =>
    match s.phase c with
    | .inflight k =>
      { s with phase := setPhase s.phase c (.done k),
               resolved := fun i => if i = k + 1 then true else s.resolved i,
               lastTs := if ok then t else s.lastTs, clock := t }
    | _ => s

/-- A list of events is a valid schedule from `s` when each event is enabled
in the state reached by its predecessors. -/
def okTrace : SchedState → List GatewayEvent → Prop
  | _, [] => True
  | s, e :: es => enabledEvent s e ∧ okTrace (applyEvent s e) es

/-- The state reached after a list of events. -/
def execTrace : SchedState → List GatewayEvent → SchedState
  | s, [] => s
  | s, e :: es => execTrace (applyEvent s e) es

/-- The callers of the `enter` events of a trace, in order: the gate-arrival
order. -/
def enterCallers : List GatewayEvent → List Nat
  | [] => []
  | .enter c _ :: es => c :: enterCallers es
  | _ :: es => enterCallers es

/-- The callers of the `issue` events of a trace, in order: the order in
which requests pass the throttle. -/
def issueCallers : List GatewayEvent → List Nat
  | [] => []
  | .issue c _ :: es => c :: issueCallers es
  | _ :: es => issueCallers es

/-- The times of the `issue` events of a trace, in order. -/
def issueTimes : List GatewayEvent → List Nat
  | [] => []
  | .issue _ t :: es => t :: issueTimes es
  | _ :: es => issueTimes es

/-- The ticket of a caller that is anywhere inside the call. -/
def ticketOf : CallerPhase → Option Nat
  | .idle => none
  | .waiting k => some k
  | .sleeping k _ => some k
  | .inflight k => some k
  | .done k => some k

/-- The ticket of a caller that has passed `await wait_for`. -/
def passedTicket : CallerPhase → Option Nat
  | .sleeping k _ => some k
  | .inflight k => some k
  | .done k => some k
  | _ => none

/-- The ticket of a caller that is in the cooldown or the HTTP call:
between the gate and the resolution of its successor future. -/
def activeTicket : CallerPhase → Option Nat
  | .sleeping k _ => some k
  | .inflight k => some k
  | _ => none

/-- The ticket of a caller whose request has passed the throttle. -/
def issuedTicket : CallerPhase → Option Nat
  | .inflight k => some k
  | .done k => some k
  | _ => none

/-- A caller that has passed the gate is somewhere inside the call. -/
theorem passed_ticketOf {p : CallerPhase} {k : Nat}
    (h : passedTicket p = some k) : ticketOf p = some k := by
  cases p <;> simp_all [passedTicket, ticketOf]

/-- A caller in its cooldown or HTTP call has passed the gate. -/
theorem active_passed {p : CallerPhase} {k : Nat}
    (h : activeTicket p = some k) : passedTicket p = some k := by
  cases p <;> simp_all [activeTicket, passedTicket]

/-- A caller whose request passed the throttle is somewhere inside the call. -/
theorem issued_ticketOf {p : CallerPhase} {k : Nat}
    (h : issuedTicket p = some k) : ticketOf p = some k := by
  cases p <;> simp_all [issuedTicket, ticketOf]

/-- State invariant of the gateway trace semantics, established at
`gatewayInit` and preserved by every enabled event. -/
structure GatewayInv (s : SchedState) : Prop where
  resolved_zero : s.resolved 0 = true
  lastTs_le_clock : s.lastTs ≤ s.clock
  ticket_lt : ∀ c k, ticketOf (s.phase c) = some k → k < s.chainLen
  ticket_inj : ∀ c c' k, ticketOf (s.phase c) = some k →
    ticketOf (s.phase c') = some k → c = c'
  passed_resolved : ∀ c k, passedTicket (s.phase c) = some k →
    s.resolved k = true
  resolved_down : ∀ k, s.resolved k = true → ∀ j, j < k →
    ∃ c, s.phase c = .done j
  sleep_wake : ∀ c k w, s.phase c = .sleeping k w →
    s.lastTs + requestInterval ≤ w
  entered_len : s.enteredList.length = s.chainLen
  entered_at : ∀ c k, ticketOf (s.phase c) = some k →
    s.enteredList[k]? = some c
  issued_iff : ∀ k, (∃ c, issuedTicket (s.phase c) = some k) ↔
    k < s.issuedList.length
  issued_take : s.issuedList = s.enteredList.take s.issuedList.length

/-- No caller can be in its cooldown or HTTP call with a ticket below a
resolved future: the holder of that smaller ticket would already be done. -/
theorem active_below_resolved_false {s : SchedState} (hInv : GatewayInv s)
    {c k k' : Nat} (hc : activeTicket (s.phase c) = some k)
    (hk : s.resolved k' = true) (hlt : k < k') : False := by
  obtain ⟨x, hx⟩ := hInv.resolved_down k' hk k hlt
  have h1 : ticketOf (s.phase x) = some k := by rw [hx]; rfl
  have h2 : ticketOf (s.phase c) = some k :=
    passed_ticketOf (active_passed hc)
  have hcx := hInv.ticket_inj c x k h2 h1
  subst hcx
  rw [hx] at hc
  simp [activeTicket] at hc

/-- Mutual exclusion of the critical section: at most one caller is between
the gate and the resolution of its successor future. -/
theorem active_unique {s : SchedState} (hInv : GatewayInv s)
    {c c' k k' : Nat} (hc : activeTicket (s.phase c) = some k)
    (hc' : activeTicket (s.phase c') = some k') : c = c' := by
  rcases Nat.lt_trichotomy k k' with h | h | h
  · exact (active_below_resolved_false hInv hc
      (hInv.passed_resolved c' k' (active_passed hc')) h).elim
  · subst h
    exact hInv.ticket_inj c c' k (passed_ticketOf (active_passed hc))
      (passed_ticketOf (active_passed hc'))
  · exact (active_below_resolved_false hInv hc'
      (hInv.passed_resolved c k (active_passed hc)) h).elim

/-- Every enabled event preserves the gateway invariant. -/
theorem gatewayInv_step {s : SchedState} {e : GatewayEvent}
    (hInv : GatewayInv s) (hen : enabledEvent s e) :
    GatewayInv (applyEvent s e) := by
  cases e with
  | enter c t =>
    obtain ⟨hc, hct⟩ := hen
    refine ⟨hInv.resolved_zero, le_trans hInv.lastTs_le_clock hct,
      ?_, ?_, ?_, ?_, ?_, ?_, ?_, ?_, ?_⟩
    · intro x k h
      simp only [applyEvent, setPhase] at h
      by_cases hx : x = c
      · rw [if_pos hx] at h
        simp only [ticketOf, Option.some.injEq] at h
        show k < s.chainLen + 1
        omega
      · rw [if_neg hx] at h
        exact Nat.lt_succ_of_lt (hInv.ticket_lt x k h)
    · intro x y k hx hy
      simp only [applyEvent, setPhase] at hx hy
      by_cases hxc : x = c <;> by_cases hyc : y = c
      · rw [hxc, hyc]
      · rw [if_pos hxc] at hx
        rw [if_neg hyc] at hy
        simp only [ticketOf, Option.some.injEq] at hx
        rw [← hx] at hy
        exact absurd (hInv.ticket_lt y s.chainLen hy) (lt_irrefl _)
      · rw [if_neg hxc] at hx
        rw [if_pos hyc] at hy
        simp only [ticketOf, Option.some.injEq] at hy
        rw [← hy] at hx
        exact absurd (hInv.ticket_lt x s.chainLen hx) (lt_irrefl _)
      · rw [if_neg hxc] at hx
        rw [if_neg hyc] at hy
        exact hInv.ticket_inj x y k hx hy
    · intro x k h
      simp only [applyEvent, setPhase] at h
      by_cases hx : x = c
      · rw [if_pos hx] at h
        simp [passedTicket] at h
      · rw [if_neg hx] at h
        exact hInv.passed_resolved x k h
    · intro k hk j hj
      obtain ⟨x, hx⟩ := hInv.resolved_down k hk j hj
      have hxc : x ≠ c := by
        intro hxc
        rw [hxc, hc] at hx
        exact CallerPhase.noConfusion hx
      refine ⟨x, ?_⟩
      simp only [applyEvent, setPhase, if_neg hxc]
      exact hx
    · intro x k w h
      simp only [applyEvent, setPhase] at h
      by_cases hx : x = c
      · rw [if_pos hx] at h
        exact CallerPhase.noConfusion h
      · rw [if_neg hx] at h
        exact hInv.sleep_wake x k w h
    · simp [applyEvent, hInv.entered_len]
    · intro x k h
      simp only [applyEvent, setPhase] at h ⊢
      by_cases hx : x = c
      · rw [if_pos hx] at h
        simp only [ticketOf, Option.some.injEq] at h
        rw [← h, ← hInv.entered_len, hx]
        exact List.getElem?_concat_length _ _
      · rw [if_neg hx] at h
        have hk := hInv.ticket_lt x k h
        rw [List.getElem?_append_left (by rw [hInv.entered_len]; exact hk)]
        exact hInv.entered_at x k h
    · intro k
      constructor
      · rintro ⟨x, hx⟩
        simp only [applyEvent, setPhase] at hx
        by_cases hxc : x = c
        · rw [if_pos hxc] at hx
          simp [issuedTicket] at hx
        · rw [if_neg hxc] at hx
          exact (hInv.issued_iff k).mp ⟨x, hx⟩
      · intro hk
        obtain ⟨x, hx⟩ := (hInv.issued_iff k).mpr hk
        have hxc : x ≠ c := by
          intro hxc
          rw [hxc, hc] at hx
          simp [issuedTicket] at hx
        refine ⟨x, ?_⟩
        simp only [applyEvent, setPhase, if_neg hxc]
        exact hx
    · show s.issuedList = (s.enteredList ++ [c]).take s.issuedList.length
      by_cases hm : s.issuedList.length = 0
      · rw [List.length_eq_zero] at hm
        simp [hm]
      · have hlt : s.issuedList.length - 1 < s.issuedList.length := by omega
        obtain ⟨x, hx⟩ := (hInv.issued_iff _).mpr hlt
        have := hInv.ticket_lt x _ (issued_ticketOf hx)
        have hle : s.issuedList.length ≤ s.enteredList.length := by
          rw [hInv.entered_len]; omega
        rw [List.take_append_of_le_length hle]
        exact hInv.issued_take
  | beginWait c t =>
    obtain ⟨⟨k, hc, hres⟩, hct⟩ := hen
    simp only [applyEvent, hc]
    have hcold : ticketOf (s.phase c) = some k := by rw [hc]; rfl
    refine ⟨hInv.resolved_zero, le_trans hInv.lastTs_le_clock hct,
      ?_, ?_, ?_, ?_, ?_, hInv.entered_len, ?_, ?_, hInv.issued_take⟩
    · intro x k₁ h
      simp only [setPhase] at h
      by_cases hx : x = c
      · rw [if_pos hx] at h
        simp only [ticketOf, Option.some.injEq] at h
        rw [← h]
        exact hInv.ticket_lt c k hcold
      · rw [if_neg hx] at h
        exact hInv.ticket_lt x k₁ h
    · intro x y k₁ hx hy
      simp only [setPhase] at hx hy
      by_cases hxc : x = c <;> by_cases hyc : y = c
      · rw [hxc, hyc]
      · rw [if_pos hxc] at hx
        rw [if_neg hyc] at hy
        simp only [ticketOf, Option.some.injEq] at hx
        rw [hx] at hcold
        rw [hxc]
        exact hInv.ticket_inj c y k₁ hcold hy
      · rw [if_neg hxc] at hx
        rw [if_pos hyc] at hy
        simp only [ticketOf, Option.some.injEq] at hy
        rw [hy] at hcold
        rw [hyc]
        exact hInv.ticket_inj x c k₁ hx hcold
      · rw [if_neg hxc] at hx
        rw [if_neg hyc] at hy
        exact hInv.ticket_inj x y k₁ hx hy
    · intro x k₁ h
      simp only [setPhase] at h
      by_cases hx : x = c
      · rw [if_pos hx] at h
        simp only [passedTicket, Option.some.injEq] at h
        rw [← h]
        exact hres
      · rw [if_neg hx] at h
        exact hInv.passed_resolved x k₁ h
    · intro k₁ hk₁ j hj
      obtain ⟨x, hx⟩ := hInv.resolved_down k₁ hk₁ j hj
      have hxc : x ≠ c := by
        intro hxc
        rw [hxc, hc] at hx
        exact CallerPhase.noConfusion hx
      exact ⟨x, by simp only [setPhase, if_neg hxc]; exact hx⟩
    · intro x k₁ w₁ h
      simp only [setPhase] at h
      by_cases hx : x = c
      · rw [if_pos hx] at h
        have hw : w₁ = wakeTime s.lastTs t := by
          cases h; rfl
        rw [hw]
        show s.lastTs + requestInterval ≤ wakeTime s.lastTs t
        unfold wakeTime
        split
        · exact le_refl _
        · omega
      · rw [if_neg hx] at h
        exact hInv.sleep_wake x k₁ w₁ h
    · intro x k₁ h
      simp only [setPhase] at h
      by_cases hx : x = c
      · rw [if_pos hx] at h
        simp only [ticketOf, Option.some.injEq] at h
        rw [← h, hx]
        exact hInv.entered_at c k hcold
      · rw [if_neg hx] at h
        exact hInv.entered_at x k₁ h
    · intro k₁
      constructor
      · rintro ⟨x, hx⟩
        simp only [setPhase] at hx
        by_cases hxc : x = c
        · rw [if_pos hxc] at hx
          simp [issuedTicket] at hx
        · rw [if_neg hxc] at hx
          exact (hInv.issued_iff k₁).mp ⟨x, hx⟩
      · intro hk₁
        obtain ⟨x, hx⟩ := (hInv.issued_iff k₁).mpr hk₁
        have hxc : x ≠ c := by
          intro hxc
          rw [hxc, hc] at hx
          simp [issuedTicket] at hx
        exact ⟨x, by simp only [setPhase, if_neg hxc]; exact hx⟩
  | issue c t =>
    obtain ⟨⟨k, w, hc, hwt⟩, hct⟩ := hen
    simp only [applyEvent, hc]
    have hcold : ticketOf (s.phase c) = some k := by rw [hc]; rfl
    have hres : s.resolved k = true :=
      hInv.passed_resolved c k (by rw [hc]; rfl)
    have hkm : k = s.issuedList.length := by
      have hkle : k ≤ s.issuedList.length := by
        by_contra hlt
        push_neg at hlt
        obtain ⟨x, hx⟩ := hInv.resolved_down k hres s.issuedList.length hlt
        have : s.issuedList.length < s.issuedList.length :=
          (hInv.issued_iff _).mp ⟨x, by rw [hx]; rfl⟩
        omega
      have hmle : s.issuedList.length ≤ k := by
        by_contra hlt
        push_neg at hlt
        obtain ⟨x, hx⟩ := (hInv.issued_iff k).mpr hlt
        have hxc : x = c := hInv.ticket_inj x c k (issued_ticketOf hx) hcold
        rw [hxc, hc] at hx
        simp [issuedTicket] at hx
      omega
    refine ⟨hInv.resolved_zero, le_trans hInv.lastTs_le_clock hct,
      ?_, ?_, ?_, ?_, ?_, hInv.entered_len, ?_, ?_, ?_⟩
    · intro x k₁ h
      simp only [setPhase] at h
      by_cases hx : x = c
      · rw [if_pos hx] at h
        simp only [ticketOf, Option.some.injEq] at h
        rw [← h]
        exact hInv.ticket_lt c k hcold
      · rw [if_neg hx] at h
        exact hInv.ticket_lt x k₁ h
    · intro x y k₁ hx hy
      simp only [setPhase] at hx hy
      by_cases hxc : x = c <;> by_cases hyc : y = c
      · rw [hxc, hyc]
      · rw [if_pos hxc] at hx
        rw [if_neg hyc] at hy
        simp only [ticketOf, Option.some.injEq] at hx
        rw [hx] at hcold
        rw [hxc]
        exact hInv.ticket_inj c y k₁ hcold hy
      · rw [if_neg hxc] at hx
        rw [if_pos hyc] at hy
        simp only [ticketOf, Option.some.injEq] at hy
        rw [hy] at hcold
        rw [hyc]
        exact hInv.ticket_inj x c k₁ hx hcold
      · rw [if_neg hxc] at hx
        rw [if_neg hyc] at hy
        exact hInv.ticket_inj x y k₁ hx hy
    · intro x k₁ h
      simp only [setPhase] at h
      by_cases hx : x = c
      · rw [if_pos hx] at h
        simp only [passedTicket, Option.some.injEq] at h
        rw [← h]
        exact hres
      · rw [if_neg hx] at h
        exact hInv.passed_resolved x k₁ h
    · intro k₁ hk₁ j hj
      obtain ⟨x, hx⟩ := hInv.resolved_down k₁ hk₁ j hj
      have hxc : x ≠ c := by
        intro hxc
        rw [hxc, hc] at hx
        exact CallerPhase.noConfusion hx
      exact ⟨x, by simp only [setPhase, if_neg hxc]; exact hx⟩
    · intro x k₁ w₁ h
      simp only [setPhase] at h
      by_cases hx : x = c
      · rw [if_pos hx] at h
        exact CallerPhase.noConfusion h
      · rw [if_neg hx] at h
        exact hInv.sleep_wake x k₁ w₁ h
    · intro x k₁ h
      simp only [setPhase] at h
      by_cases hx : x = c
      · rw [if_pos hx] at h
        simp only [ticketOf, Option.some.injEq] at h
        rw [← h, hx]
        exact hInv.entered_at c k hcold
      · rw [if_neg hx] at h
        exact hInv.entered_at x k₁ h
    · intro k₁
      constructor
      · rintro ⟨x, hx⟩
        simp only [setPhase] at hx
        show k₁ < (s.issuedList ++ [c]).length
        rw [List.length_append, List.length_singleton]
        by_cases hxc : x = c
        · rw [if_pos hxc] at hx
          simp only [issuedTicket, Option.some.injEq] at hx
          omega
        · rw [if_neg hxc] at hx
          have := (hInv.issued_iff k₁).mp ⟨x, hx⟩
          omega
      · intro hk₁
        have hk₁' : k₁ < (s.issuedList ++ [c]).length := hk₁
        rw [List.length_append, List.length_singleton] at hk₁'
        by_cases hkm₁ : k₁ = s.issuedList.length
        · refine ⟨c, ?_⟩
          show issuedTicket (setPhase s.phase c (CallerPhase.inflight k) c)
            = some k₁
          rw [setPhase_self]
          show some k = some k₁
          rw [hkm, hkm₁]
        · obtain ⟨x, hx⟩ := (hInv.issued_iff k₁).mpr (by omega)
          have hxc : x ≠ c := by
            intro hxc
            rw [hxc, hc] at hx
            simp [issuedTicket] at hx
          exact ⟨x, by simp only [setPhase, if_neg hxc]; exact hx⟩
    · show s.issuedList ++ [c] = s.enteredList.take (s.issuedList ++ [c]).length
      have hgl : s.enteredList[s.issuedList.length]? = some c := by
        rw [← hkm]
        exact hInv.entered_at c k hcold
      have hlen : (s.issuedList ++ [c]).length = s.issuedList.length + 1 := by
        simp
      rw [hlen, List.take_succ, hgl, ← hInv.issued_take]
      rfl
  | complete c ok t =>
    obtain ⟨⟨k, hc⟩, hct⟩ := hen
    simp only [applyEvent, hc]
    have hcold : ticketOf (s.phase c) = some k := by rw [hc]; rfl
    have hres : s.resolved k = true :=
      hInv.passed_resolved c k (by rw [hc]; rfl)
    refine ⟨?_, ?_, ?_, ?_, ?_, ?_, ?_, hInv.entered_len, ?_, ?_,
      hInv.issued_take⟩
    · show (if (0 : Nat) = k + 1 then true else s.resolved 0) = true
      rw [if_neg (by omega)]
      exact hInv.resolved_zero
    · show (if ok then t else s.lastTs) ≤ t
      cases ok
      · simpa using le_trans hInv.lastTs_le_clock hct
      · simp
    · intro x k₁ h
      simp only [setPhase] at h
      by_cases hx : x = c
      · rw [if_pos hx] at h
        simp only [ticketOf, Option.some.injEq] at h
        rw [← h]
        exact hInv.ticket_lt c k hcold
      · rw [if_neg hx] at h
        exact hInv.ticket_lt x k₁ h
    · intro x y k₁ hx hy
      simp only [setPhase] at hx hy
      by_cases hxc : x = c <;> by_cases hyc : y = c
      · rw [hxc, hyc]
      · rw [if_pos hxc] at hx
        rw [if_neg hyc] at hy
        simp only [ticketOf, Option.some.injEq] at hx
        rw [hx] at hcold
        rw [hxc]
        exact hInv.ticket_inj c y k₁ hcold hy
      · rw [if_neg hxc] at hx
        rw [if_pos hyc] at hy
        simp only [ticketOf, Option.some.injEq] at hy
        rw [hy] at hcold
        rw [hyc]
        exact hInv.ticket_inj x c k₁ hx hcold
      · rw [if_neg hxc] at hx
        rw [if_neg hyc] at hy
        exact hInv.ticket_inj x y k₁ hx hy
    · intro x k₁ h
      simp only [setPhase] at h
      by_cases hx : x = c
      · rw [if_pos hx] at h
        simp only [passedTicket, Option.some.injEq] at h
        show (if k₁ = k + 1 then true else s.resolved k₁) = true
        rw [if_neg (by omega)]
        rw [← h]
        exact hres
      · rw [if_neg hx] at h
        show (if k₁ = k + 1 then true else s.resolved k₁) = true
        by_cases hk : k₁ = k + 1
        · rw [if_pos hk]
        · rw [if_neg hk]
          exact hInv.passed_resolved x k₁ h
    · intro k₁ hk₁ j hj
      have hk₁' : (if k₁ = k + 1 then true else s.resolved k₁) = true := hk₁
      by_cases hkk : k₁ = k + 1
      · subst hkk
        by_cases hjk : j = k
        · refine ⟨c, ?_⟩
          show setPhase s.phase c (CallerPhase.done k) c = CallerPhase.done j
          rw [setPhase_self, hjk]
        · obtain ⟨x, hx⟩ := hInv.resolved_down k hres j (by omega)
          have hxc : x ≠ c := by
            intro hxc
            rw [hxc, hc] at hx
            exact CallerPhase.noConfusion hx
          exact ⟨x, by simp only [setPhase, if_neg hxc]; exact hx⟩
      · rw [if_neg hkk] at hk₁'
        obtain ⟨x, hx⟩ := hInv.resolved_down k₁ hk₁' j hj
        have hxc : x ≠ c := by
          intro hxc
          rw [hxc, hc] at hx
          exact CallerPhase.noConfusion hx
        exact ⟨x, by simp only [setPhase, if_neg hxc]; exact hx⟩
    · intro x k₁ w₁ h
      simp only [setPhase] at h
      by_cases hx : x = c
      · rw [if_pos hx] at h
        exact CallerPhase.noConfusion h
      · rw [if_neg hx] at h
        have hax : activeTicket (s.phase x) = some k₁ := by rw [h]; rfl
        have hac : activeTicket (s.phase c) = some k := by rw [hc]; rfl
        exact absurd (active_unique hInv hax hac) hx
    · intro x k₁ h
      simp only [setPhase] at h
      by_cases hx : x = c
      · rw [if_pos hx] at h
        simp only [ticketOf, Option.some.injEq] at h
        rw [← h, hx]
        exact hInv.entered_at c k hcold
      · rw [if_neg hx] at h
        exact hInv.entered_at x k₁ h
    · intro k₁
      constructor
      · rintro ⟨x, hx⟩
        simp only [setPhase] at hx
        by_cases hxc : x = c
        · rw [if_pos hxc] at hx
          simp only [issuedTicket, Option.some.injEq] at hx
          exact (hInv.issued_iff k₁).mp
            ⟨c, by rw [hc]; simp [issuedTicket, hx]⟩
        · rw [if_neg hxc] at hx
          exact (hInv.issued_iff k₁).mp ⟨x, hx⟩
      · intro hk₁
        obtain ⟨x, hx⟩ := (hInv.issued_iff k₁).mpr hk₁
        by_cases hxc : x = c
        · rw [hxc, hc] at hx
          simp only [issuedTicket, Option.some.injEq] at hx
          exact ⟨c, by simp [setPhase, issuedTicket, hx]⟩
        · exact ⟨x, by simp only [setPhase, if_neg hxc]; exact hx⟩

/-- The invariant holds in the initial state. -/
theorem gatewayInv_init : GatewayInv gatewayInit := by
  refine ⟨rfl, le_refl _, ?_, ?_, ?_, ?_, ?_, rfl, ?_, ?_, rfl⟩
  · intro c k h
    simp [gatewayInit, ticketOf] at h
  · intro c c' k h h'
    simp [gatewayInit, ticketOf] at h
  · intro c k h
    simp [gatewayInit, passedTicket] at h
  · intro k hk j hj
    have hk0 : k = 0 := by simpa [gatewayInit] using hk
    omega
  · intro c k w h
    simp [gatewayInit] at h
  · intro c k h
    simp [gatewayInit, ticketOf] at h
  · intro k
    simp [gatewayInit, issuedTicket]

/-- Unfolding a valid schedule at a cons cell. -/
theorem okTrace_cons {s : SchedState} {e : GatewayEvent}
    {es : List GatewayEvent} :
    okTrace s (e :: es) ↔ enabledEvent s e ∧ okTrace (applyEvent s e) es :=
  Iff.rfl

/-- Unfolding trace execution at a cons cell. -/
theorem execTrace_cons (s : SchedState) (e : GatewayEvent)
    (es : List GatewayEvent) :
    execTrace s (e :: es) = execTrace (applyEvent s e) es := rfl

/-- The invariant holds in every state reachable by a valid schedule. -/
theorem gatewayInv_exec :
    ∀ (tr : List GatewayEvent) (s : SchedState), GatewayInv s →
      okTrace s tr → GatewayInv (execTrace s tr) := by
  intro tr
  induction tr with
  | nil =>
    intro s hInv _
    exact hInv
  | cons e es ih =>
    intro s hInv hok
    rw [okTrace_cons] at hok
    exact ih (applyEvent s e) (gatewayInv_step hInv hok.1) hok.2

/-- A schedule is valid for a concatenation exactly when the first part is
valid and the rest is valid from the state the first part reaches. -/
theorem okTrace_append :
    ∀ (tr₁ tr₂ : List GatewayEvent) (s : SchedState),
      okTrace s (tr₁ ++ tr₂) ↔
        okTrace s tr₁ ∧ okTrace (execTrace s tr₁) tr₂ := by
  intro tr₁
  induction tr₁ with
  | nil =>
    intro tr₂ s
    exact ⟨fun h => ⟨trivial, h⟩, fun h => h.2⟩
  | cons e es ih =>
    intro tr₂ s
    rw [List.cons_append, okTrace_cons, okTrace_cons, ih, execTrace_cons,
      and_assoc]

/-- Along any valid schedule the history variables record exactly the
callers of the `enter` and `issue` events, in order. -/
theorem execTrace_history :
    ∀ (tr : List GatewayEvent) (s : SchedState), okTrace s tr →
      (execTrace s tr).enteredList = s.enteredList ++ enterCallers tr
      ∧ (execTrace s tr).issuedList = s.issuedList ++ issueCallers tr := by
  intro tr
  induction tr with
  | nil =>
    intro s _
    constructor
    · show s.enteredList = s.enteredList ++ []
      rw [List.append_nil]
    · show s.issuedList = s.issuedList ++ []
      rw [List.append_nil]
  | cons e es ih =>
    intro s hok
    rw [okTrace_cons] at hok
    obtain ⟨hen, hok'⟩ := hok
    obtain ⟨ih1, ih2⟩ := ih (applyEvent s e) hok'
    rw [execTrace_cons]
    cases e with
    | enter c t =>
      refine ⟨?_, ?_⟩
      · rw [ih1]
        show (s.enteredList ++ [c]) ++ enterCallers es
          = s.enteredList ++ (c :: enterCallers es)
        simp
      · rw [ih2]
        rfl
    | beginWait c t =>
      obtain ⟨⟨k, hc, hres⟩, hct⟩ := hen
      have hA : (applyEvent s (GatewayEvent.beginWait c t)).enteredList
            = s.enteredList
          ∧ (applyEvent s (GatewayEvent.beginWait c t)).issuedList
            = s.issuedList := by
        simp [applyEvent, hc]
      refine ⟨?_, ?_⟩
      · rw [ih1, hA.1]
        rfl
      · rw [ih2, hA.2]
        rfl
    | issue c t =>
      obtain ⟨⟨k, w, hc, hwt⟩, hct⟩ := hen
      have hA : (applyEvent s (GatewayEvent.issue c t)).enteredList
            = s.enteredList
          ∧ (applyEvent s (GatewayEvent.issue c t)).issuedList
            = s.issuedList ++ [c] := by
        simp [applyEvent, hc]
      refine ⟨?_, ?_⟩
      · rw [ih1, hA.1]
        rfl
      · rw [ih2, hA.2]
        show (s.issuedList ++ [c]) ++ issueCallers es
          = s.issuedList ++ (c :: issueCallers es)
        simp
    | complete c ok t =>
      obtain ⟨⟨k, hc⟩, hct⟩ := hen
      have hA : (applyEvent s (GatewayEvent.complete c ok t)).enteredList
            = s.enteredList
          ∧ (applyEvent s (GatewayEvent.complete c ok t)).issuedList
            = s.issuedList := by
        simp [applyEvent, hc]
      refine ⟨?_, ?_⟩
      · rw [ih1, hA.1]
        rfl
      · rw [ih2, hA.2]
        rfl

/-- Once the clock and `_last_request_ts` have both reached `T` and every
pending cooldown deadline is at least `T + requestInterval`, every later
throttle pass happens at or after `T + requestInterval`. -/
theorem issue_after_bound (T : Nat) :
    ∀ (tr : List GatewayEvent) (s : SchedState), okTrace s tr →
      T ≤ s.lastTs → T ≤ s.clock →
      (∀ c k w, s.phase c = .sleeping k w → T + requestInterval ≤ w) →
      ∀ c t, GatewayEvent.issue c t ∈ tr → T + requestInterval ≤ t := by
  intro tr
  induction tr with
  | nil =>
    intro s _ _ _ _ c t h
    exact absurd h (List.not_mem_nil _)
  | cons e es ih =>
    intro s hok hT hTc hsleep c t hmem
    rw [okTrace_cons] at hok
    obtain ⟨hen, hok'⟩ := hok
    rcases List.mem_cons.mp hmem with heq | hmem'
    · rw [← heq] at hen
      obtain ⟨⟨k, w, hc, hwt⟩, hct⟩ := hen
      have := hsleep c k w hc
      omega
    · cases e with
      | enter x u =>
        obtain ⟨hc, hct⟩ := hen
        refine ih (applyEvent s _) hok' hT (le_trans hTc hct) ?_ c t hmem'
        intro y k w h
        simp only [applyEvent, setPhase] at h
        by_cases hy : y = x
        · rw [if_pos hy] at h
          exact CallerPhase.noConfusion h
        · rw [if_neg hy] at h
          exact hsleep y k w h
      | beginWait x u =>
        obtain ⟨⟨k₀, hc, hres⟩, hct⟩ := hen
        have hlast : T ≤ (applyEvent s (GatewayEvent.beginWait x u)).lastTs := by
          simp only [applyEvent, hc]
          exact hT
        have hclk : T ≤ (applyEvent s (GatewayEvent.beginWait x u)).clock := by
          simp only [applyEvent, hc]
          exact le_trans hTc hct
        refine ih _ hok' hlast hclk ?_ c t hmem'
        intro y k w h
        have h' : setPhase s.phase x
            (CallerPhase.sleeping k₀ (wakeTime s.lastTs u)) y
            = CallerPhase.sleeping k w := by
          simpa only [applyEvent, hc] using h
        simp only [setPhase] at h'
        by_cases hy : y = x
        · rw [if_pos hy] at h'
          injection h' with h1 h2
          rw [← h2]
          unfold wakeTime
          split <;> omega
        · rw [if_neg hy] at h'
          exact hsleep y k w h'
      | issue x u =>
        obtain ⟨⟨k₀, w₀, hc, hwu⟩, hct⟩ := hen
        have hlast : T ≤ (applyEvent s (GatewayEvent.issue x u)).lastTs := by
          simp only [applyEvent, hc]
          exact hT
        have hclk : T ≤ (applyEvent s (GatewayEvent.issue x u)).clock := by
          simp only [applyEvent, hc]
          exact le_trans hTc hct
        refine ih _ hok' hlast hclk ?_ c t hmem'
        intro y k w h
        have h' : setPhase s.phase x (CallerPhase.inflight k₀) y
            = CallerPhase.sleeping k w := by
          simpa only [applyEvent, hc] using h
        simp only [setPhase] at h'
        by_cases hy : y = x
        · rw [if_pos hy] at h'
          exact CallerPhase.noConfusion h'
        · rw [if_neg hy] at h'
          exact hsleep y k w h'
      | complete x ok u =>
        obtain ⟨⟨k₀, hc⟩, hct⟩ := hen
        have hlast : T ≤ (applyEvent s (GatewayEvent.complete x ok u)).lastTs := by
          simp only [applyEvent, hc]
          show T ≤ (if ok then u else s.lastTs)
          cases ok
          · exact hT
          · exact le_trans hTc hct
        have hclk : T ≤ (applyEvent s (GatewayEvent.complete x ok u)).clock := by
          simp only [applyEvent, hc]
          exact le_trans hTc hct
        refine ih _ hok' hlast hclk ?_ c t hmem'
        intro y k w h
        have h' : setPhase s.phase x (CallerPhase.done k₀) y
            = CallerPhase.sleeping k w := by
          simpa only [applyEvent, hc] using h
        simp only [setPhase] at h'
        by_cases hy : y = x
        · rw [if_pos hy] at h'
          exact CallerPhase.noConfusion h'
        · rw [if_neg hy] at h'
          exact hsleep y k w h'

/-- Claim C1 (amended).  In every valid schedule of concurrent
`_rate_limited_request` calls: (FIFO) the sequence of callers whose requests
pass the throttle is an initial segment of the sequence of callers arriving
at the gate, so requests are issued in exactly gate-arrival order;
(mutual exclusion) at most one request is past the gate and unfinished at
any reachable instant; (throttle spacing, weakened) every throttle pass
after a successful request completion at time `T` happens no earlier than
`T + requestInterval`, so two consecutive passes lie at least
`requestInterval` apart whenever the earlier request succeeds — but after a
request that raises, `_last_request_ts` is not updated and the next request
may pass the throttle arbitrarily soon after the failed one. -/
theorem gateway_fifo_and_throttle (tr : List GatewayEvent)
    (hok : okTrace gatewayInit tr) :
    issueCallers tr <+: enterCallers tr
    ∧ (∀ c c' k k',
        (execTrace gatewayInit tr).phase c = .inflight k →
        (execTrace gatewayInit tr).phase c' = .inflight k' → c = c')
    ∧ (∀ (tr₁ tr₂ : List GatewayEvent) (c T : Nat),
        tr = tr₁ ++ GatewayEvent.complete c true T :: tr₂ →
        ∀ c' t', GatewayEvent.issue c' t' ∈ tr₂ →
          T + requestInterval ≤ t') := by
  have hInv := gatewayInv_exec tr gatewayInit gatewayInv_init hok
  obtain ⟨hent, hiss⟩ := execTrace_history tr gatewayInit hok
  have h1 : (execTrace gatewayInit tr).issuedList = issueCallers tr := by
    rw [hiss]
    rfl
  have h2 : (execTrace gatewayInit tr).enteredList = enterCallers tr := by
    rw [hent]
    rfl
  refine ⟨?_, ?_, ?_⟩
  · have htake := hInv.issued_take
    rw [h1, h2] at htake
    refine ⟨(enterCallers tr).drop (issueCallers tr).length, ?_⟩
    nth_rewrite 1 [htake]
    exact List.take_append_drop _ _
  · intro c c' k k' h h'
    have hac : activeTicket ((execTrace gatewayInit tr).phase c) = some k := by
      rw [h]
      rfl
    have hac' : activeTicket ((execTrace gatewayInit tr).phase c')
        = some k' := by
      rw [h']
      rfl
    exact active_unique hInv hac hac'
  · intro tr₁ tr₂ c T heq c' t' hmem
    rw [heq, okTrace_append] at hok
    obtain ⟨hok₁, hok₂⟩ := hok
    rw [okTrace_cons] at hok₂
    obtain ⟨henC, hok₃⟩ := hok₂
    have hInv₁ := gatewayInv_exec tr₁ gatewayInit gatewayInv_init hok₁
    obtain ⟨⟨k, hc⟩, hct⟩ := henC
    have hlast : T ≤ (applyEvent (execTrace gatewayInit tr₁)
        (GatewayEvent.complete c true T)).lastTs := by
      simp [applyEvent, hc]
    have hclk : T ≤ (applyEvent (execTrace gatewayInit tr₁)
        (GatewayEvent.complete c true T)).clock := by
      simp [applyEvent, hc]
    have hsleep : ∀ x k₁ w, (applyEvent (execTrace gatewayInit tr₁)
        (GatewayEvent.complete c true T)).phase x
          = CallerPhase.sleeping k₁ w →
        T + requestInterval ≤ w := by
      intro x k₁ w h
      have h' : setPhase (execTrace gatewayInit tr₁).phase c
          (CallerPhase.done k) x = CallerPhase.sleeping k₁ w := by
        simpa only [applyEvent, hc] using h
      simp only [setPhase] at h'
      by_cases hx : x = c
      · rw [if_pos hx] at h'
        exact CallerPhase.noConfusion h'
      · rw [if_neg hx] at h'
        have hax : activeTicket ((execTrace gatewayInit tr₁).phase x)
            = some k₁ := by
          rw [h']
          rfl
        have hac : activeTicket ((execTrace gatewayInit tr₁).phase c)
            = some k := by
          rw [hc]
          rfl
        exact absurd (active_unique hInv₁ hax hac) hx
    exact issue_after_bound T tr₂ _ hok₃ hlast hclk hsleep c' t' hmem

/-- Witness for claim C1 at a concrete one-caller schedule: caller 0 enters,
waits, passes the throttle and completes successfully; its issue sequence is
an initial segment of its entry sequence. -/
theorem gateway_fifo_and_throttle_witness :
    issueCallers [GatewayEvent.enter 0 5, GatewayEvent.beginWait 0 5,
        GatewayEvent.issue 0 5, GatewayEvent.complete 0 true 5]
      <+: enterCallers [GatewayEvent.enter 0 5, GatewayEvent.beginWait 0 5,
        GatewayEvent.issue 0 5, GatewayEvent.complete 0 true 5] :=
  (gateway_fifo_and_throttle
    [GatewayEvent.enter 0 5, GatewayEvent.beginWait 0 5,
     GatewayEvent.issue 0 5, GatewayEvent.complete 0 true 5]
    ⟨⟨rfl, by decide⟩, ⟨⟨0, rfl, rfl⟩, by decide⟩,
     ⟨⟨0, 5, rfl, by decide⟩, by decide⟩,
     ⟨⟨0, rfl⟩, by decide⟩, trivial⟩).1

/-- Counterexample to claim C1 as stated: a valid schedule of two callers in
which caller 0 enters the gate first, passes the throttle at time 1 and its
request raises, after which caller 1 — served after caller 0, in FIFO
order — passes the throttle at the same instant 1.  The two throttle passes
are 0 time units apart, less than `requestInterval = 1`, because the failed
request did not update `_last_request_ts`. -/
theorem gateway_throttle_counterexample :
    okTrace gatewayInit
      [GatewayEvent.enter 0 1, GatewayEvent.enter 1 1,
       GatewayEvent.beginWait 0 1, GatewayEvent.issue 0 1,
       GatewayEvent.complete 0 false 1,
       GatewayEvent.beginWait 1 1, GatewayEvent.issue 1 1]
    ∧ issueTimes
      [GatewayEvent.enter 0 1, GatewayEvent.enter 1 1,
       GatewayEvent.beginWait 0 1, GatewayEvent.issue 0 1,
       GatewayEvent.complete 0 false 1,
       GatewayEvent.beginWait 1 1, GatewayEvent.issue 1 1] = [1, 1]
    ∧ requestInterval = 1 :=
  ⟨⟨⟨rfl, by decide⟩, ⟨rfl, by decide⟩, ⟨⟨0, rfl, rfl⟩, by decide⟩,
    ⟨⟨0, 1, rfl, by decide⟩, by decide⟩, ⟨⟨0, rfl⟩, by decide⟩,
    ⟨⟨1, rfl, rfl⟩, by decide⟩, ⟨⟨1, 1, rfl, by decide⟩, by decide⟩,
    trivial⟩, rfl, rfl⟩
